import Mathlib

set_option maxRecDepth 8000

/-!
Verification model of the ISO-TP OTA sender
(src/esp_isotp/examples/ota/pytest_isotp_ota.py).

The Python core consists of three pieces:
  * `_make_header(size)` : struct.pack("<BBIH", 0x4F, 0x54, size, 0);
  * `send_chunk(data)`   : submit one chunk to the ISO-TP stack and poll
    `transmitting()` / `process()` until drained or a wall-clock timeout;
  * `ota_send_isotp(fw, ..., chunk, ..., timeout)` : build the header,
    send header ++ fw[:n0] with n0 = max(0, chunk - len(header)), then loop
    over fw[off : off + chunk] slices, inside try/except/finally that
    releases the CAN bus.

Bytes are modelled as natural numbers < 256 inside `List Nat`; wall-clock
time is modelled as rational numbers; the ISO-TP stack and CAN bus are
modelled as an environment oracle recording whether each external call
succeeds.
-/

namespace OtaIsoTp

/-- Model of the output bytes of `_make_header`: struct.pack("<BBIH", 0x4F, 0x54,
size, 0) = magic bytes 0x4F 0x54, then `size` little-endian in 4 bytes, then
two zero bytes (the reserved le16 field). -/
def headerBytes (size : Nat) : List Nat :=
  [0x4F, 0x54,
   size % 256, size / 256 % 256, size / 256 ^ 2 % 256, size / 256 ^ 3 % 256,
   0, 0]

/-- Model of `_make_header`: struct.pack raises `struct.error` when the "I"
(unsigned 32-bit) argument does not fit, so the header exists only for
`size < 2^32`. -/
def makeHeader (size : Nat) : Option (List Nat) :=
  if size < 2 ^ 32 then some (headerBytes size) else none

/-- The header length used by the split computation: `len(header)` is 8. -/
def headerLen : Nat := 8

/-- `n0 = max(0, chunk - len(header))`, the length of the payload portion of
the first chunk.  Over naturals the truncated subtraction already clamps at
zero, matching the `max(0, ...)` the Python code applies to integers. -/
def n0 (chunk : Nat) : Nat := max (chunk - headerLen) 0

/-- The first transmitted unit, `header + fw[:n0]`, with the header bytes the
code produces for `len(fw)` (defined whenever the header is constructible). -/
def firstUnit (fw : List Nat) (chunk : Nat) : List Nat :=
  headerBytes fw.length ++ fw.take (n0 chunk)

/-- Python slice `fw[off : off + chunk]`. -/
def sliceAt (fw : List Nat) (off chunk : Nat) : List Nat :=
  (fw.drop off).take chunk

/-- The payload slices produced by the `while off < len(fw)` loop starting at
offset `off`: slice `fw[off : off + chunk]`, then advance `off` by `chunk`.
The guard `0 < chunk` reflects that the loop only terminates for a positive
chunk size. -/
def restPortions (fw : List Nat) (chunk off : Nat) : List (List Nat) :=
  if h : off < fw.length ∧ 0 < chunk then
    sliceAt fw off chunk :: restPortions fw chunk (off + chunk)
  else
    []
  termination_by fw.length - off
  decreasing_by omega

/-- All payload portions handed to the transport, in order: the first chunk
contributes `fw[:n0]`, the loop contributes the `restPortions`. -/
def allPortions (fw : List Nat) (chunk : Nat) : List (List Nat) :=
  fw.take (n0 chunk) :: restPortions fw chunk (n0 chunk)

/-- Total number of chunks handed to the transport on a fully successful
transfer: the first (header) chunk plus the loop chunks. -/
def numChunks (fw : List Nat) (chunk : Nat) : Nat :=
  (allPortions fw chunk).length

/-! ## The chunk transmitter: send_chunk

The Python loop is

    start = time.time()
    stack.send(data)
    while stack.transmitting():
        stack.process()
        if time.time() - start > timeout:
            return False
        time.sleep(0.001)
    return True

`tr i` is the value of `stack.transmitting()` at its i-th evaluation; `clock`
gives the successive `time.time()` readings, `clock 0` being `start` and
`clock (i+1)` the reading taken in iteration i after the i-th `process()`
call.  Wall-clock instants are rationals.  `fuel` bounds the number of loop
iterations modelled; `none` means the loop was still running after `fuel`
iterations.  The result carries the index of the clock reading at which the
loop exits. -/
def sendChunkAux (tr : Nat → Bool) (clock : Nat → ℚ) (timeout : ℚ) :
    Nat → Nat → Option (Bool × Nat)
  | 0, _ => none
  | fuel + 1, i =>
    if tr i then
      if timeout < clock (i + 1) - clock 0 then some (false, i + 1)
      else sendChunkAux tr clock timeout fuel (i + 1)
    else some (true, i)

/-- `send_chunk` as observed by the driver: poll from the first
`transmitting()` check, with `start = clock 0`. -/
def sendChunk (tr : Nat → Bool) (clock : Nat → ℚ) (timeout : ℚ)
    (fuel : Nat) : Option (Bool × Nat) :=
  sendChunkAux tr clock timeout fuel 0

/-! ## The transfer driver: ota_send_isotp

External effects are modelled by an environment oracle: whether the CAN bus
construction succeeds, whether the ISO-TP stack setup succeeds, the outcome
of each `send_chunk` invocation (in call order), and whether
`bus.shutdown()` succeeds. -/

/-- Outcome of one `send_chunk` invocation: the chunk drained (`ok`), the
poll loop timed out (`timedOut`), or `stack.send` raised (`raised`). -/
inductive ChunkOutcome
  | ok
  | timedOut
  | raised
deriving DecidableEq, Repr

/-- Oracle for the external effects of one `ota_send_isotp` run. -/
structure Env where
  busOk : Bool
  setupOk : Bool
  outcome : Nat → ChunkOutcome
  shutdownOk : Bool

/-- Observables of the `while off < len(fw)` loop: the aggregate boolean it
contributes to the return value, the data of each `send_chunk` call it makes,
the final value of `off`, the final value of `chunk_count`, and the number of
driver-level `stack.process()` calls it makes after successful chunks. -/
structure LoopOut where
  ok : Bool
  sent : List (List Nat)
  finalOff : Nat
  count : Nat
  procs : Nat
deriving DecidableEq, Repr

/-- The `while off < len(fw)` loop of `ota_send_isotp`, starting at offset
`off` with `chunk_count = cnt`, where the next `send_chunk` call is the
`k`-th of the run.  On a failed `send_chunk` the function returns
immediately with `off` and `chunk_count` frozen; on success it advances
`off` by `chunk`, increments `chunk_count`, and makes one `stack.process()`
call. -/
def otaLoop (fw : List Nat) (chunk : Nat) (outcome : Nat → ChunkOutcome)
    (off k cnt : Nat) : LoopOut :=
  if h : off < fw.length ∧ 0 < chunk then
    match outcome k with
    | ChunkOutcome.ok =>
      let r := otaLoop fw chunk outcome (off + chunk) (k + 1) (cnt + 1)
      ⟨r.ok, sliceAt fw off chunk :: r.sent, r.finalOff, r.count, r.procs + 1⟩
    | _ => ⟨false, [sliceAt fw off chunk], off, cnt, 0⟩
  else
    ⟨true, [], off, cnt, 0⟩
  termination_by fw.length - off
  decreasing_by omega

/-- Observables of the `try` body of `ota_send_isotp` (the `except Exception`
handler turns every raise inside the body into `return False`): the returned
boolean, the data of each `send_chunk` call, and the completion log
`(chunk_count, len(fw))` emitted only on the success path. -/
structure BodyOut where
  success : Bool
  sent : List (List Nat)
  report : Option (Nat × Nat)
deriving DecidableEq, Repr

/-- The `try` body of `ota_send_isotp`: bus construction, stack setup,
header construction (raises for `len(fw) ≥ 2^32`), first chunk
`header + fw[:n0]` (send_chunk call 0), then the loop starting at
`off = n0`, `chunk_count = 1`. -/
def otaBody (fw : List Nat) (chunk : Nat) (env : Env) : BodyOut :=
  if env.busOk then
    if env.setupOk then
      match makeHeader fw.length with
      | none => ⟨false, [], none⟩
      | some header =>
        match env.outcome 0 with
        | ChunkOutcome.ok =>
          let r := otaLoop fw chunk env.outcome (n0 chunk) 1 1
          if r.ok then
            ⟨true, (header ++ fw.take (n0 chunk)) :: r.sent,
             some (r.count, fw.length)⟩
          else
            ⟨false, (header ++ fw.take (n0 chunk)) :: r.sent, none⟩
        | _ => ⟨false, [header ++ fw.take (n0 chunk)], none⟩
    else ⟨false, [], none⟩
  else ⟨false, [], none⟩

/-- `bus.shutdown()` as an effect that may raise. -/
def shutdownAttempt (env : Env) : Except String Unit :=
  if env.shutdownOk then Except.ok () else Except.error "shutdown raised"

/-- Observables of the `finally` block: whether an exception escapes it
(replacing the pending return value, per Python semantics) and whether
`bus.shutdown()` was invoked. -/
structure FinOut where
  escapes : Bool
  attempted : Bool
deriving DecidableEq, Repr

/-- The `finally` block: `if bus: try: bus.shutdown() except Exception:
logging.warning(...)`.  The inner handler swallows a raising shutdown, so no
exception escapes either way; `bus` is non-None exactly when the bus
construction succeeded. -/
def finallyBlock (env : Env) : FinOut :=
  if env.busOk then
    match shutdownAttempt env with
    | Except.ok _ => ⟨false, true⟩
    | Except.error _ => ⟨false, true⟩
  else ⟨false, false⟩

/-- Caller-visible observables of one `ota_send_isotp` call. -/
structure RunOut where
  ret : Except String Bool
  sent : List (List Nat)
  report : Option (Nat × Nat)
  shutdownCalled : Bool
deriving Repr

/-- `ota_send_isotp`: run the body, then the `finally` block; a `finally`
that raised would replace the pending return value with the exception. -/
def otaSend (fw : List Nat) (chunk : Nat) (env : Env) : RunOut :=
  let b := otaBody fw chunk env
  let fin := finallyBlock env
  ⟨if fin.escapes then Except.error "teardown raised" else Except.ok b.success,
   b.sent, b.report, fin.attempted⟩

/-- The full sequence of units handed to `send_chunk` on a fully successful
run: the first unit (header plus first payload portion) and the loop
slices. -/
def fullChunks (fw : List Nat) (chunk : Nat) : List (List Nat) :=
  firstUnit fw chunk :: restPortions fw chunk (n0 chunk)

/-- Environment in which every external call succeeds. -/
def envAllOk : Env :=
  ⟨true, true, fun _ => ChunkOutcome.ok, true⟩

/-! ## Basic lemmas about the framing -/

theorem restPortions_eq (fw : List Nat) (chunk off : Nat) :
    restPortions fw chunk off =
      if off < fw.length ∧ 0 < chunk then
        sliceAt fw off chunk :: restPortions fw chunk (off + chunk)
      else [] := by
  rw [restPortions]
  split <;> simp_all

theorem restPortions_of_ge (fw : List Nat) (chunk off : Nat)
    (h : fw.length ≤ off) : restPortions fw chunk off = [] := by
  rw [restPortions_eq]
  simp [Nat.not_lt.mpr h]

/-- The loop slices starting at `off` concatenate to `fw.drop off`. -/
theorem restPortions_flatten (fw : List Nat) (chunk : Nat) (hc : 0 < chunk) :
    ∀ off, (restPortions fw chunk off).flatten = fw.drop off := by
  have key : ∀ n off, fw.length - off ≤ n →
      (restPortions fw chunk off).flatten = fw.drop off := by
    intro n
    induction n with
    | zero =>
      intro off hoff
      rw [restPortions_of_ge fw chunk off (by omega)]
      simp [List.drop_eq_nil_of_le (show fw.length ≤ off by omega)]
    | succ n ih =>
      intro off hoff
      rw [restPortions_eq]
      by_cases hlt : off < fw.length
      · simp only [hlt, hc, and_self, if_true, List.flatten_cons]
        rw [ih (off + chunk) (by omega)]
        simpa [sliceAt] using List.drop_take_append_drop fw off chunk
      · simp [hlt, List.drop_eq_nil_of_le (show fw.length ≤ off by omega)]
  intro off
  exact key (fw.length - off) off le_rfl

example : restPortions [1, 2, 3, 4, 5] 2 1 = [[2, 3], [4, 5]] := by
  rw [restPortions_eq]; norm_num
  rw [sliceAt, restPortions_eq]; norm_num
  rw [sliceAt, restPortions_eq]; norm_num

/-- The loop never ends with `off` below `len(fw)`. -/
theorem restPortions_final_ge (fw : List Nat) (chunk : Nat) (hc : 0 < chunk) :
    ∀ off, fw.length ≤ off + chunk * (restPortions fw chunk off).length := by
  have key : ∀ n off, fw.length - off ≤ n →
      fw.length ≤ off + chunk * (restPortions fw chunk off).length := by
    intro n
    induction n with
    | zero =>
      intro off hoff
      rw [restPortions_of_ge fw chunk off (by omega)]
      simp; omega
    | succ n ih =>
      intro off hoff
      rw [restPortions_eq]
      by_cases hlt : off < fw.length
      · simp only [hlt, hc, and_self, if_true, List.length_cons]
        have := ih (off + chunk) (by omega)
        calc fw.length ≤ (off + chunk) + chunk * (restPortions fw chunk (off + chunk)).length := this
          _ = off + chunk * ((restPortions fw chunk (off + chunk)).length + 1) := by ring
      · simp only [hlt, false_and, if_false, List.length_nil]
        omega
  intro off
  exact key (fw.length - off) off le_rfl

/-! ## Basic lemmas about the loop -/

theorem otaLoop_eq (fw : List Nat) (chunk : Nat) (outcome : Nat → ChunkOutcome)
    (off k cnt : Nat) :
    otaLoop fw chunk outcome off k cnt =
      if off < fw.length ∧ 0 < chunk then
        match outcome k with
        | ChunkOutcome.ok =>
          let r := otaLoop fw chunk outcome (off + chunk) (k + 1) (cnt + 1)
          ⟨r.ok, sliceAt fw off chunk :: r.sent, r.finalOff, r.count, r.procs + 1⟩
        | _ => ⟨false, [sliceAt fw off chunk], off, cnt, 0⟩
      else
        ⟨true, [], off, cnt, 0⟩ := by
  rw [otaLoop]
  split <;> simp_all

theorem otaLoop_of_ge (fw : List Nat) (chunk : Nat)
    (outcome : Nat → ChunkOutcome) (off k cnt : Nat) (h : fw.length ≤ off) :
    otaLoop fw chunk outcome off k cnt = ⟨true, [], off, cnt, 0⟩ := by
  rw [otaLoop_eq]
  simp [Nat.not_lt.mpr h]

/-- When every `send_chunk` call succeeds, the loop sends exactly the
`restPortions` slices, advances `off` by `chunk` per iteration, increments
`chunk_count` once per iteration, and makes one driver-level `process()`
call per iteration. -/
theorem otaLoop_allOk (fw : List Nat) (chunk : Nat)
    (outcome : Nat → ChunkOutcome) (hc : 0 < chunk)
    (hok : ∀ i, outcome i = ChunkOutcome.ok) :
    ∀ off k cnt, otaLoop fw chunk outcome off k cnt =
      ⟨true, restPortions fw chunk off,
       off + chunk * (restPortions fw chunk off).length,
       cnt + (restPortions fw chunk off).length,
       (restPortions fw chunk off).length⟩ := by
  have key : ∀ n off k cnt, fw.length - off ≤ n →
      otaLoop fw chunk outcome off k cnt =
        ⟨true, restPortions fw chunk off,
         off + chunk * (restPortions fw chunk off).length,
         cnt + (restPortions fw chunk off).length,
         (restPortions fw chunk off).length⟩ := by
    intro n
    induction n with
    | zero =>
      intro off k cnt hoff
      rw [otaLoop_of_ge fw chunk outcome off k cnt (by omega),
          restPortions_of_ge fw chunk off (by omega)]
      simp
    | succ n ih =>
      intro off k cnt hoff
      by_cases hlt : off < fw.length
      · have hrest : restPortions fw chunk off =
            sliceAt fw off chunk :: restPortions fw chunk (off + chunk) := by
          rw [restPortions_eq]; simp [hlt, hc]
        rw [otaLoop_eq]
        simp only [hlt, hc, and_self, if_true, hok k,
                   ih (off + chunk) (k + 1) (cnt + 1) (by omega), hrest,
                   List.length_cons, LoopOut.mk.injEq]
        exact ⟨trivial, trivial, by ring, by omega, trivial⟩
      · rw [otaLoop_of_ge fw chunk outcome off k cnt (by omega),
            restPortions_of_ge fw chunk off (by omega)]
        simp
  intro off k cnt
  exact key (fw.length - off) off k cnt le_rfl

/-- If every `send_chunk` call exits the loop successfully, `chunk_count`
grows by exactly the number of chunks the loop sent. -/
theorem otaLoop_count_of_ok (fw : List Nat) (chunk : Nat)
    (outcome : Nat → ChunkOutcome) :
    ∀ off k cnt, (otaLoop fw chunk outcome off k cnt).ok = true →
      (otaLoop fw chunk outcome off k cnt).count =
        cnt + (otaLoop fw chunk outcome off k cnt).sent.length := by
  have key : ∀ n off k cnt, fw.length - off ≤ n →
      (otaLoop fw chunk outcome off k cnt).ok = true →
      (otaLoop fw chunk outcome off k cnt).count =
        cnt + (otaLoop fw chunk outcome off k cnt).sent.length := by
    intro n
    induction n with
    | zero =>
      intro off k cnt hoff _
      rw [otaLoop_of_ge fw chunk outcome off k cnt (by omega)]
      simp
    | succ n ih =>
      intro off k cnt hoff hok
      rw [otaLoop_eq] at hok ⊢
      by_cases hlt : off < fw.length
      · by_cases hcpos : 0 < chunk
        · simp only [hlt, hcpos, and_self, if_true] at hok ⊢
          cases houtcome : outcome k with
          | ok =>
            simp only [houtcome] at hok ⊢
            have := ih (off + chunk) (k + 1) (cnt + 1) (by omega) hok
            simp only [List.length_cons]
            omega
          | timedOut => simp [houtcome] at hok
          | raised => simp [houtcome] at hok
        · simp [hlt, hcpos]
      · simp [hlt]
  intro off k cnt
  exact key (fw.length - off) off k cnt le_rfl

/-! ## Lemmas about the send_chunk poll loop -/

/-- Whenever the poll loop exits with `False`, the clock reading taken at
that exit already exceeded the timeout. -/
theorem sendChunkAux_false_elapsed (tr : Nat → Bool) (clock : Nat → ℚ)
    (timeout : ℚ) :
    ∀ fuel i j, sendChunkAux tr clock timeout fuel i = some (false, j) →
      timeout < clock j - clock 0 := by
  intro fuel
  induction fuel with
  | zero =>
    intro i j h
    simp [sendChunkAux] at h
  | succ fuel ih =>
    intro i j h
    simp only [sendChunkAux] at h
    by_cases htr : tr i
    · simp only [htr, if_true] at h
      by_cases hcl : timeout < clock (i + 1) - clock 0
      · simp only [hcl, if_true, Option.some.injEq, Prod.mk.injEq] at h
        exact h.2 ▸ hcl
      · simp only [hcl, if_false] at h
        exact ih (i + 1) j h
    · simp [htr] at h

/-- If `transmitting()` never clears and some modelled clock reading exceeds
the timeout, the poll loop exits with `False`. -/
theorem sendChunkAux_reaches_false (tr : Nat → Bool) (clock : Nat → ℚ)
    (timeout : ℚ) (htr : ∀ n, tr n = true) :
    ∀ fuel i, (∃ m, i ≤ m ∧ m < i + fuel ∧ timeout < clock (m + 1) - clock 0) →
      ∃ j, sendChunkAux tr clock timeout fuel i = some (false, j) := by
  intro fuel
  induction fuel with
  | zero =>
    rintro i ⟨m, h1, h2, _⟩
    omega
  | succ fuel ih =>
    rintro i ⟨m, h1, h2, h3⟩
    simp only [sendChunkAux, htr i, if_true]
    by_cases hcl : timeout < clock (i + 1) - clock 0
    · exact ⟨i + 1, by simp [hcl]⟩
    · have hmi : i ≠ m := fun he => hcl (he ▸ h3)
      rw [if_neg hcl]
      exact ih (i + 1) ⟨m, by omega, by omega, h3⟩

/-! ## Claims -/

/-- C1: for every payload `fw` and every `maxChunkSize ≥ 1`, the first
chunk payload portion `fw[0:n0]` followed by the payload portions
`fw[off:off+maxChunkSize]` of all subsequent chunks, concatenated in order,
reconstructs `fw` exactly. -/
theorem c1_roundTrip (fw : List Nat) (chunk : Nat) (hc : 1 ≤ chunk) :
    fw.take (n0 chunk) ++ (restPortions fw chunk (n0 chunk)).flatten = fw ∧
    (allPortions fw chunk).flatten = fw := by
  have h : fw.take (n0 chunk) ++ (restPortions fw chunk (n0 chunk)).flatten
      = fw := by
    rw [restPortions_flatten fw chunk hc, List.take_append_drop]
  exact ⟨h, by simpa [allPortions] using h⟩

theorem c1_roundTrip_witness :
    List.take (n0 12) [1, 2, 3, 4, 5, 6, 7] ++
      (restPortions [1, 2, 3, 4, 5, 6, 7] 12 (n0 12)).flatten
      = [1, 2, 3, 4, 5, 6, 7] :=
  (c1_roundTrip [1, 2, 3, 4, 5, 6, 7] 12 (by norm_num)).1

/-- C2 counterexample: with `maxChunkSize = 1` and an empty payload the
first transmitted unit is the bare 8-byte header, which exceeds
`maxChunkSize`, so the claimed bound `≤ maxChunkSize` is false as stated. -/
theorem c2_counterexample :
    (firstUnit [] 1).length = 8 ∧ ¬((firstUnit [] 1).length ≤ 1) := by
  constructor <;> decide

/-- C2 (amended): for `L < 2^32` the header is built, has length `H = 8`,
the split point is `n0 = max(0, maxChunkSize - H)`, the first transmitted
unit has length exactly `H + min(n0, L)`, and this never exceeds
`maxChunkSize` provided `maxChunkSize ≥ H`. -/
theorem c2_firstUnitLength (fw : List Nat) (chunk : Nat)
    (hsize : fw.length < 2 ^ 32) :
    makeHeader fw.length = some (headerBytes fw.length) ∧
    (headerBytes fw.length).length = headerLen ∧
    n0 chunk = max (chunk - headerLen) 0 ∧
    (firstUnit fw chunk).length = headerLen + min (n0 chunk) fw.length ∧
    (headerLen ≤ chunk → (firstUnit fw chunk).length ≤ chunk) := by
  refine ⟨by simp only [makeHeader]; rw [if_pos hsize], rfl, rfl, ?_, ?_⟩
  · simp [firstUnit, headerBytes, headerLen, List.length_take]
    omega
  · intro hch
    simp only [firstUnit, List.length_append, List.length_take]
    have h8 : (headerBytes fw.length).length = 8 := rfl
    rw [h8]
    simp only [n0, headerLen] at *
    omega

theorem c2_firstUnitLength_witness :
    (firstUnit [1, 2, 3] 10).length = headerLen + min (n0 10) 3 ∧
    (firstUnit [1, 2, 3] 10).length ≤ 10 := by
  have h := c2_firstUnitLength [1, 2, 3] 10 (by norm_num)
  exact ⟨h.2.2.2.1, h.2.2.2.2 (by decide)⟩

/-- C4: for every `size` in the unsigned 32-bit range, the header is exactly
8 bytes: magic bytes 0x4F 0x54, then `size` little-endian in bytes 2..5
(recombining them gives back `size`, so nothing is truncated), then two zero
bytes. -/
theorem c4_header (size : Nat) (hsize : size < 2 ^ 32) :
    makeHeader size = some (headerBytes size) ∧
    (headerBytes size).length = 8 ∧
    headerBytes size =
      [0x4F, 0x54, size % 256, size / 256 % 256, size / 256 ^ 2 % 256,
       size / 256 ^ 3 % 256, 0, 0] ∧
    size % 256 + 256 * (size / 256 % 256) + 256 ^ 2 * (size / 256 ^ 2 % 256)
      + 256 ^ 3 * (size / 256 ^ 3 % 256) = size := by
  refine ⟨by simp only [makeHeader]; rw [if_pos hsize], rfl, rfl, ?_⟩
  have h2 : (256 : Nat) ^ 2 = 65536 := by norm_num
  have h3 : (256 : Nat) ^ 3 = 16777216 := by norm_num
  rw [h2, h3]
  have h32 : (2 : Nat) ^ 32 = 4294967296 := by norm_num
  rw [h32] at hsize
  omega

theorem c4_header_witness :
    makeHeader 70000 = some (headerBytes 70000) ∧
    (headerBytes 70000).length = 8 ∧
    headerBytes 70000 =
      [0x4F, 0x54, 70000 % 256, 70000 / 256 % 256, 70000 / 256 ^ 2 % 256,
       70000 / 256 ^ 3 % 256, 0, 0] ∧
    70000 % 256 + 256 * (70000 / 256 % 256) + 256 ^ 2 * (70000 / 256 ^ 2 % 256)
      + 256 ^ 3 * (70000 / 256 ^ 3 % 256) = 70000 :=
  c4_header 70000 (by norm_num)

/-- C5: if `transmitting()` never clears (and the modelled run is long
enough that some clock reading exceeds the timeout), `send_chunk` returns
failure; and whenever it returns timeout failure, the clock reading at the
exit already exceeded `timeoutSeconds`, so failure is never reported before
the timeout has elapsed. -/
theorem c5_sendChunkTimeout (tr : Nat → Bool) (clock : Nat → ℚ)
    (timeout : ℚ) (fuel : Nat) (htr : ∀ n, tr n = true)
    (hreach : ∃ m, m < fuel ∧ timeout < clock (m + 1) - clock 0) :
    (∃ j, sendChunk tr clock timeout fuel = some (false, j)) ∧
    (∀ j, sendChunk tr clock timeout fuel = some (false, j) →
      timeout < clock j - clock 0) := by
  obtain ⟨m, hm, h3⟩ := hreach
  constructor
  · exact sendChunkAux_reaches_false tr clock timeout htr fuel 0
      ⟨m, by omega, by omega, h3⟩
  · intro j h
    exact sendChunkAux_false_elapsed tr clock timeout fuel 0 j h

theorem c5_sendChunkTimeout_witness :
    (∃ j, sendChunk (fun _ => true) (fun n => (n : ℚ)) 2 5 = some (false, j)) ∧
    (∀ j, sendChunk (fun _ => true) (fun n => (n : ℚ)) 2 5 = some (false, j) →
      (2 : ℚ) < (fun n => (n : ℚ)) j - (fun n => (n : ℚ)) 0) :=
  c5_sendChunkTimeout (fun _ => true) (fun n => (n : ℚ)) 2 5 (fun _ => rfl)
    ⟨2, by norm_num, by norm_num⟩

/-- C3: with `H = 8`, the transfer produces exactly one chunk when `L = 0`
(the bare 8-byte header) and when `L = maxChunkSize - H`, exactly two chunks
when `L = maxChunkSize - H + 1`, and for `L = 5000` with
`maxChunkSize = 2048` exactly three chunks whose payload portions have
lengths 2040, 2048 and 912 in that order. -/
theorem c3_chunkCounts (fw : List Nat) (chunk : Nat) (hc : 1 ≤ chunk) :
    (fw.length = 0 →
      numChunks fw chunk = 1 ∧ firstUnit fw chunk = headerBytes fw.length ∧
      (firstUnit fw chunk).length = 8) ∧
    (fw.length = chunk - headerLen → numChunks fw chunk = 1) ∧
    (fw.length = chunk - headerLen + 1 → numChunks fw chunk = 2) ∧
    (fw.length = 5000 → chunk = 2048 →
      numChunks fw chunk = 3 ∧
      (allPortions fw chunk).map List.length = [2040, 2048, 912]) := by
  have hn0 : n0 chunk = chunk - headerLen := by simp [n0]
  refine ⟨?_, ?_, ?_, ?_⟩
  · intro hL
    have hfw : fw = [] := List.length_eq_zero.mp hL
    subst hfw
    refine ⟨?_, by simp [firstUnit], by simp [firstUnit, headerBytes]⟩
    have hrest : restPortions [] chunk (n0 chunk) = [] :=
      restPortions_of_ge _ _ _ (by simp)
    simp [numChunks, allPortions, hrest]
  · intro hL
    have hle : fw.length ≤ n0 chunk := by omega
    simp [numChunks, allPortions, restPortions_of_ge _ _ _ hle]
  · intro hL
    have hlt : n0 chunk < fw.length := by omega
    have h2 : restPortions fw chunk (n0 chunk) =
        sliceAt fw (n0 chunk) chunk :: restPortions fw chunk (n0 chunk + chunk) := by
      rw [restPortions_eq]
      simp [hlt, show 0 < chunk from hc]
    have h3 : restPortions fw chunk (n0 chunk + chunk) = [] :=
      restPortions_of_ge _ _ _ (by omega)
    simp [numChunks, allPortions, h2, h3]
  · intro hL hchunk
    subst hchunk
    have hn : n0 2048 = 2040 := by simp [n0, headerLen]
    have h1 : restPortions fw 2048 2040 =
        sliceAt fw 2040 2048 :: restPortions fw 2048 (2040 + 2048) := by
      rw [restPortions_eq]
      simp [hL]
    have h2 : restPortions fw 2048 (2040 + 2048) =
        sliceAt fw (2040 + 2048) 2048 ::
          restPortions fw 2048 (2040 + 2048 + 2048) := by
      rw [restPortions_eq]
      simp [hL]
    have h3 : restPortions fw 2048 (2040 + 2048 + 2048) = [] :=
      restPortions_of_ge _ _ _ (by omega)
    constructor
    · simp [numChunks, allPortions, hn, h1, h2, h3]
    · simp only [allPortions, hn, h1, h2, h3, List.map_cons, List.map_nil,
        sliceAt, List.length_take, List.length_drop, hL]
      norm_num

theorem c3_chunkCounts_witness :
    numChunks (List.replicate 5000 0) 2048 = 3 ∧
    (allPortions (List.replicate 5000 0) 2048).map List.length =
      [2040, 2048, 912] :=
  (c3_chunkCounts (List.replicate 5000 0) 2048 (by norm_num)).2.2.2
    (List.length_replicate 5000 0) rfl

/-- The finally block never lets an exception escape. -/
theorem finallyBlock_escapes (env : Env) : (finallyBlock env).escapes = false := by
  rw [finallyBlock, shutdownAttempt]
  by_cases hb : env.busOk <;> by_cases hs : env.shutdownOk <;>
    simp [hb, hs]

/-- The finally block invokes `bus.shutdown()` exactly when the bus
construction succeeded. -/
theorem finallyBlock_attempted (env : Env) :
    (finallyBlock env).attempted = env.busOk := by
  rw [finallyBlock, shutdownAttempt]
  by_cases hb : env.busOk <;> by_cases hs : env.shutdownOk <;>
    simp [hb, hs]

/-- If the `k`-preceded calls in the loop all succeed and the call at
relative index `j` fails, the loop stops with `False` having submitted
exactly the first `j + 1` slices. -/
theorem otaLoop_failAt (fw : List Nat) (chunk : Nat)
    (outcome : Nat → ChunkOutcome) (hc : 0 < chunk) :
    ∀ j off k cnt, (∀ i, i < j → outcome (k + i) = ChunkOutcome.ok) →
      outcome (k + j) ≠ ChunkOutcome.ok →
      j < (restPortions fw chunk off).length →
      (otaLoop fw chunk outcome off k cnt).ok = false ∧
      (otaLoop fw chunk outcome off k cnt).sent =
        (restPortions fw chunk off).take (j + 1) := by
  intro j
  induction j with
  | zero =>
    intro off k cnt _ hfail hlen
    have hoff : off < fw.length := by
      by_contra hge
      rw [restPortions_of_ge fw chunk off (by omega)] at hlen
      simp at hlen
    have hrest : restPortions fw chunk off =
        sliceAt fw off chunk :: restPortions fw chunk (off + chunk) := by
      rw [restPortions_eq]; simp [hoff, hc]
    rw [otaLoop_eq]
    simp only [hoff, hc, and_self, if_true]
    cases hout : outcome k with
    | ok => exact absurd (by simpa using hout) (by simpa using hfail)
    | timedOut => simp [hrest]
    | raised => simp [hrest]
  | succ j ih =>
    intro off k cnt hok hfail hlen
    have hoff : off < fw.length := by
      by_contra hge
      rw [restPortions_of_ge fw chunk off (by omega)] at hlen
      simp at hlen
    have hrest : restPortions fw chunk off =
        sliceAt fw off chunk :: restPortions fw chunk (off + chunk) := by
      rw [restPortions_eq]; simp [hoff, hc]
    have hk0 : outcome k = ChunkOutcome.ok := by
      simpa using hok 0 (Nat.succ_pos j)
    have hih := ih (off + chunk) (k + 1) (cnt + 1)
      (fun i hi => by
        rw [show k + 1 + i = k + (i + 1) from by omega]
        exact hok (i + 1) (by omega))
      (by rw [show k + 1 + j = k + (j + 1) from by omega]; exact hfail)
      (by rw [hrest] at hlen; simpa using hlen)
    rw [otaLoop_eq]
    simp only [hoff, hc, and_self, if_true, hk0]
    refine ⟨hih.1, ?_⟩
    rw [hrest, List.take_succ_cons, hih.2]

/-- C6: every failure aborts the remaining sequence.  A bus-construction
failure or a stack-setup exception makes `ota_send_isotp` return `False`
with no chunk submitted; a chunk-level failure (poll-loop timeout or a
raising `stack.send`) at call `k` makes it return `False` having submitted
exactly the first `k + 1` chunks of the nominal sequence — no chunk after
the failing one, no per-chunk retry, no resumption. -/
theorem c6_failureStops (fw : List Nat) (chunk : Nat) (env : Env) (k : Nat) :
    (env.busOk = false →
      (otaSend fw chunk env).ret = Except.ok false ∧
      (otaSend fw chunk env).sent = []) ∧
    (env.busOk = true → env.setupOk = false →
      (otaSend fw chunk env).ret = Except.ok false ∧
      (otaSend fw chunk env).sent = []) ∧
    (1 ≤ chunk → fw.length < 2 ^ 32 →
      env.busOk = true → env.setupOk = true →
      (∀ i, i < k → env.outcome i = ChunkOutcome.ok) →
      env.outcome k ≠ ChunkOutcome.ok →
      k < (fullChunks fw chunk).length →
      (otaSend fw chunk env).ret = Except.ok false ∧
      (otaSend fw chunk env).sent = (fullChunks fw chunk).take (k + 1)) := by
  refine ⟨?_, ?_, ?_⟩
  · intro hbus
    have hbody : otaBody fw chunk env = ⟨false, [], none⟩ := by
      rw [otaBody, hbus]
      simp
    constructor
    · rw [otaSend]
      simp [finallyBlock_escapes env, hbody]
    · rw [otaSend]
      simp [hbody]
  · intro hbus hsetup
    have hbody : otaBody fw chunk env = ⟨false, [], none⟩ := by
      rw [otaBody, hbus, hsetup]
      simp
    constructor
    · rw [otaSend]
      simp [finallyBlock_escapes env, hbody]
    · rw [otaSend]
      simp [hbody]
  · intro hc hsize hbus hsetup hok hfail hk
    have hbody : (otaBody fw chunk env).success = false ∧
        (otaBody fw chunk env).sent = (fullChunks fw chunk).take (k + 1) := by
      rw [otaBody, hbus, hsetup]
      simp only [if_true]
      rw [makeHeader, if_pos hsize]
      cases k with
      | zero =>
        cases hout : env.outcome 0 with
        | ok => exact absurd hout hfail
        | timedOut => simp [fullChunks, firstUnit]
        | raised => simp [fullChunks, firstUnit]
      | succ k =>
        have h0 : env.outcome 0 = ChunkOutcome.ok := hok 0 (Nat.succ_pos k)
        rw [h0]
        have hlen : k < (restPortions fw chunk (n0 chunk)).length := by
          rw [fullChunks] at hk
          simpa using hk
        have hloop := otaLoop_failAt fw chunk env.outcome hc k (n0 chunk) 1 1
          (fun i hi => by
            rw [show 1 + i = i + 1 from by omega]
            exact hok (i + 1) (by omega))
          (by rw [show 1 + k = k + 1 from by omega]; exact hfail)
          hlen
        simp only [hloop.1, if_false, hloop.2]
        simp [fullChunks, firstUnit]
    constructor
    · rw [otaSend]
      simp [finallyBlock_escapes env, hbody.1]
    · rw [otaSend]
      simpa using hbody.2

theorem c6_failureStops_witness :
    ((otaSend [1, 2, 3, 4, 5] 10
        (Env.mk false true (fun _ => ChunkOutcome.ok) true)).ret =
          Except.ok false ∧
     (otaSend [1, 2, 3, 4, 5] 10
        (Env.mk false true (fun _ => ChunkOutcome.ok) true)).sent = []) ∧
    ((otaSend [1, 2, 3, 4, 5] 10
        (Env.mk true false (fun _ => ChunkOutcome.ok) true)).ret =
          Except.ok false ∧
     (otaSend [1, 2, 3, 4, 5] 10
        (Env.mk true false (fun _ => ChunkOutcome.ok) true)).sent = []) ∧
    ((otaSend [1, 2, 3, 4, 5] 10
        (Env.mk true true
          (fun i => if i = 0 then ChunkOutcome.ok else ChunkOutcome.timedOut)
          true)).ret = Except.ok false ∧
     (otaSend [1, 2, 3, 4, 5] 10
        (Env.mk true true
          (fun i => if i = 0 then ChunkOutcome.ok else ChunkOutcome.timedOut)
          true)).sent = (fullChunks [1, 2, 3, 4, 5] 10).take 2) := by
  have hk : 1 < (fullChunks [1, 2, 3, 4, 5] 10).length := by
    have h1 : restPortions [1, 2, 3, 4, 5] 10 (n0 10) =
        sliceAt [1, 2, 3, 4, 5] (n0 10) 10 ::
          restPortions [1, 2, 3, 4, 5] 10 (n0 10 + 10) := by
      rw [restPortions_eq]
      norm_num [n0, headerLen]
    rw [fullChunks, h1]
    simp
  refine ⟨?_, ?_, ?_⟩
  · exact (c6_failureStops [1, 2, 3, 4, 5] 10
      (Env.mk false true (fun _ => ChunkOutcome.ok) true) 0).1 rfl
  · exact (c6_failureStops [1, 2, 3, 4, 5] 10
      (Env.mk true false (fun _ => ChunkOutcome.ok) true) 0).2.1 rfl rfl
  · exact (c6_failureStops [1, 2, 3, 4, 5] 10
      (Env.mk true true
        (fun i => if i = 0 then ChunkOutcome.ok else ChunkOutcome.timedOut)
        true)
      1).2.2 (by norm_num) (by norm_num) rfl rfl
      (fun i hi => by
        have h0 : i = 0 := by omega
        subst h0
        rfl)
      (by decide) hk

/-- C7: on every exit path `bus.shutdown()` is invoked exactly when the bus
was acquired (including a failure partway through setup), no exception
escapes the teardown, and the returned result, submitted chunks and report
are the same whether or not the shutdown itself fails. -/
theorem c7_teardown (fw : List Nat) (chunk : Nat) (busOk setupOk : Bool)
    (oc : Nat → ChunkOutcome) (sd : Bool) :
    (otaSend fw chunk (Env.mk busOk setupOk oc sd)).shutdownCalled = busOk ∧
    (otaSend fw chunk (Env.mk busOk setupOk oc sd)).ret =
      Except.ok ((otaBody fw chunk (Env.mk busOk setupOk oc sd)).success) ∧
    (otaSend fw chunk (Env.mk busOk setupOk oc sd)).ret =
      (otaSend fw chunk (Env.mk busOk setupOk oc true)).ret ∧
    (otaSend fw chunk (Env.mk busOk setupOk oc sd)).sent =
      (otaSend fw chunk (Env.mk busOk setupOk oc true)).sent ∧
    (otaSend fw chunk (Env.mk busOk setupOk oc sd)).report =
      (otaSend fw chunk (Env.mk busOk setupOk oc true)).report := by
  refine ⟨?_, ?_, ?_, rfl, rfl⟩
  · rw [otaSend]
    simpa using finallyBlock_attempted (Env.mk busOk setupOk oc sd)
  · rw [otaSend]
    simp [finallyBlock_escapes]
  · rw [otaSend, otaSend]
    simp only [finallyBlock_escapes, Bool.false_eq_true, if_neg, if_false]
    rfl

/-- C8: the caller observes a success flag together with the completion
report of total chunks and bytes; on completion the reported chunk count
equals the number of chunks handed to the transport and the reported byte
count equals the payload length. -/
theorem c8_reportCounts (fw : List Nat) (chunk : Nat) (env : Env)
    (hs : (otaBody fw chunk env).success = true) :
    (otaSend fw chunk env).ret = Except.ok true ∧
    (otaSend fw chunk env).report =
      some ((otaSend fw chunk env).sent.length, fw.length) := by
  have hbody : (otaBody fw chunk env).report =
      some ((otaBody fw chunk env).sent.length, fw.length) := by
    rw [otaBody] at hs ⊢
    by_cases hb : env.busOk
    case neg => simp [hb] at hs
    simp only [hb, if_true] at hs ⊢
    by_cases hst : env.setupOk
    case neg => simp [hst] at hs
    simp only [hst, if_true] at hs ⊢
    by_cases hsz : fw.length < 2 ^ 32
    case neg =>
      rw [makeHeader, if_neg hsz] at hs
      simp at hs
    rw [makeHeader, if_pos hsz] at hs ⊢
    cases hout : env.outcome 0 with
    | timedOut => rw [hout] at hs; simp at hs
    | raised => rw [hout] at hs; simp at hs
    | ok =>
      rw [hout] at hs
      by_cases hloopOk : (otaLoop fw chunk env.outcome (n0 chunk) 1 1).ok
      · have hcount := otaLoop_count_of_ok fw chunk env.outcome
          (n0 chunk) 1 1 hloopOk
        simp only [hloopOk, if_true]
        simp [hcount]
        omega
      · simp [hloopOk] at hs
  constructor
  · rw [otaSend]
    simp [finallyBlock_escapes, hs]
  · rw [otaSend]
    simpa using hbody

theorem c8_reportCounts_witness :
    (otaSend [] 12 envAllOk).ret = Except.ok true ∧
    (otaSend [] 12 envAllOk).report =
      some ((otaSend [] 12 envAllOk).sent.length, ([] : List Nat).length) := by
  apply c8_reportCounts
  have hloop := otaLoop_of_ge [] 12 (fun _ => ChunkOutcome.ok) (n0 12) 1 1
    (by simp)
  rw [otaBody]
  simp [envAllOk, makeHeader, hloop]

/-- C9 counterexample: for a 10-byte payload with `maxChunkSize = 16`
(so `n0 = 8` and the single loop slice has length 2), the loop advances the
offset by the full `maxChunkSize`, ending at offset 24, not at the payload
length 10; so the offset does not advance by the slice length actually sent
and does not equal the payload length after the final chunk. -/
theorem c9_counterexample :
    (otaLoop [0, 1, 2, 3, 4, 5, 6, 7, 8, 9] 16 (fun _ => ChunkOutcome.ok)
        (n0 16) 1 1).finalOff = 24 ∧
    ([0, 1, 2, 3, 4, 5, 6, 7, 8, 9] : List Nat).length = 10 ∧
    ¬((otaLoop [0, 1, 2, 3, 4, 5, 6, 7, 8, 9] 16 (fun _ => ChunkOutcome.ok)
        (n0 16) 1 1).finalOff
      = ([0, 1, 2, 3, 4, 5, 6, 7, 8, 9] : List Nat).length) := by
  have hbase := otaLoop_of_ge [0, 1, 2, 3, 4, 5, 6, 7, 8, 9] 16
    (fun _ => ChunkOutcome.ok) 24 2 2 (by simp)
  have h : (otaLoop [0, 1, 2, 3, 4, 5, 6, 7, 8, 9] 16
      (fun _ => ChunkOutcome.ok) (n0 16) 1 1).finalOff = 24 := by
    rw [otaLoop_eq]
    norm_num [n0, headerLen, hbase]
  refine ⟨h, by simp, ?_⟩
  rw [h]
  norm_num

/-- C9 (amended): after each successful chunk in the loop the offset
advances by exactly `maxChunkSize` (which is the length of the slice
actually sent for every chunk except possibly the final, shorter one), the
chunk counter increments by one, and one driver-level transport processing
step runs per successful chunk; after the final chunk the offset is at
least the payload length (it may exceed it), not necessarily equal to
it. -/
theorem c9_loopAdvance (fw : List Nat) (chunk : Nat) (env : Env)
    (hc : 1 ≤ chunk) (hok : ∀ i, env.outcome i = ChunkOutcome.ok) :
    (otaLoop fw chunk env.outcome (n0 chunk) 1 1).ok = true ∧
    (otaLoop fw chunk env.outcome (n0 chunk) 1 1).sent =
      restPortions fw chunk (n0 chunk) ∧
    (otaLoop fw chunk env.outcome (n0 chunk) 1 1).finalOff =
      n0 chunk + chunk * (restPortions fw chunk (n0 chunk)).length ∧
    (otaLoop fw chunk env.outcome (n0 chunk) 1 1).count =
      1 + (restPortions fw chunk (n0 chunk)).length ∧
    (otaLoop fw chunk env.outcome (n0 chunk) 1 1).procs =
      (restPortions fw chunk (n0 chunk)).length ∧
    fw.length ≤ (otaLoop fw chunk env.outcome (n0 chunk) 1 1).finalOff := by
  have h := otaLoop_allOk fw chunk env.outcome hc hok (n0 chunk) 1 1
  rw [h]
  exact ⟨rfl, rfl, rfl, rfl, rfl,
    restPortions_final_ge fw chunk hc (n0 chunk)⟩

theorem c9_loopAdvance_witness :
    (otaLoop [1, 2, 3] 12 envAllOk.outcome (n0 12) 1 1).ok = true ∧
    (otaLoop [1, 2, 3] 12 envAllOk.outcome (n0 12) 1 1).sent =
      restPortions [1, 2, 3] 12 (n0 12) ∧
    (otaLoop [1, 2, 3] 12 envAllOk.outcome (n0 12) 1 1).finalOff =
      n0 12 + 12 * (restPortions [1, 2, 3] 12 (n0 12)).length ∧
    (otaLoop [1, 2, 3] 12 envAllOk.outcome (n0 12) 1 1).count =
      1 + (restPortions [1, 2, 3] 12 (n0 12)).length ∧
    (otaLoop [1, 2, 3] 12 envAllOk.outcome (n0 12) 1 1).procs =
      (restPortions [1, 2, 3] 12 (n0 12)).length ∧
    ([1, 2, 3] : List Nat).length ≤
      (otaLoop [1, 2, 3] 12 envAllOk.outcome (n0 12) 1 1).finalOff :=
  c9_loopAdvance [1, 2, 3] 12 envAllOk (by norm_num) (fun _ => rfl)

/-- C10: for a payload whose length does not fit in unsigned 32 bits the
header construction fails, the failure is caught, and the transfer returns
`False` with no chunk ever submitted to the transport: the size field is
never silently truncated. -/
theorem c10_oversize (fw : List Nat) (chunk : Nat) (env : Env)
    (hsize : 2 ^ 32 ≤ fw.length) :
    makeHeader fw.length = none ∧
    (otaSend fw chunk env).ret = Except.ok false ∧
    (otaSend fw chunk env).sent = [] := by
  have hmk : makeHeader fw.length = none := by
    rw [makeHeader, if_neg (by omega)]
  have hbody : otaBody fw chunk env = ⟨false, [], none⟩ := by
    rw [otaBody]
    by_cases hb : env.busOk
    · by_cases hst : env.setupOk
      · simp [hb, hst, hmk]
      · simp [hb, hst]
    · simp [hb]
  refine ⟨hmk, ?_, ?_⟩
  · rw [otaSend]
    simp [finallyBlock_escapes, hbody]
  · rw [otaSend]
    simp [hbody]

theorem c10_oversize_witness :
    makeHeader (List.replicate (2 ^ 32) 0).length = none ∧
    (otaSend (List.replicate (2 ^ 32) 0) 2048 envAllOk).ret =
      Except.ok false ∧
    (otaSend (List.replicate (2 ^ 32) 0) 2048 envAllOk).sent = [] :=
  c10_oversize (List.replicate (2 ^ 32) 0) 2048 envAllOk
    (List.length_replicate (2 ^ 32) 0).symm.le

end OtaIsoTp
